import Mathlib

/-!
Shallow embedding of the edgerag ranking core: BM25 keyword scoring
(src/bm25.rs), cosine-similarity vector search (src/vector.rs) and
reciprocal-rank fusion (src/hybrid.rs), together with theorems settling
the specification claims.

Modelling conventions:
- `f32` arithmetic is modelled by exact rational arithmetic (`ℚ`);
  `ln` and `sqrt` are abstract function parameters, since the claims are
  insensitive to their concrete values.
- Hash maps are modelled by association lists.  Where the source's
  hash-map iteration order is observable (it feeds a stable sort), the
  model takes the iteration order as an explicit permutation parameter.
- Strings are modelled as `List Char`; the Unicode character classes
  used by the tokenizer are modelled exactly on the Basic Latin and
  Latin-1 Supplement blocks.
-/

namespace EdgeRag

/-! ## Tokenizer (src/bm25.rs, fn tokenize) -/

/-- Models Rust `char::is_alphanumeric` (Unicode Alphabetic or general
category Nd/Nl/No).  Exact on the Basic Latin and Latin-1 Supplement
blocks (code points up to U+00FF); code points above U+00FF are outside
the modelled character universe and are classified false. -/
def rustIsAlphanumeric (c : Char) : Bool :=
  ('a' ≤ c && c ≤ 'z') || ('A' ≤ c && c ≤ 'Z') || ('0' ≤ c && c ≤ '9') ||
    (0xC0 ≤ c.toNat && c.toNat ≤ 0xFF && c.toNat ≠ 0xD7 && c.toNat ≠ 0xF7) ||
    c.toNat = 0xAA || c.toNat = 0xB5 || c.toNat = 0xBA ||
    c.toNat = 0xB2 || c.toNat = 0xB3 || c.toNat = 0xB9 ||
    (0xBC ≤ c.toNat && c.toNat ≤ 0xBE)

/-- Models Rust `str::to_lowercase` character-wise.  Exact on the Basic
Latin and Latin-1 Supplement blocks, all of whose characters have
one-to-one lowercase mappings (A-Z and À-Þ except × map down by 32;
everything else is unchanged); code points above U+00FF are outside the
modelled character universe and are left unchanged. -/
def rustLowerChar (c : Char) : Char :=
  if 'A' ≤ c ∧ c ≤ 'Z' then Char.ofNat (c.toNat + 32)
  else if 0xC0 ≤ c.toNat ∧ c.toNat ≤ 0xDE ∧ c.toNat ≠ 0xD7 then Char.ofNat (c.toNat + 32)
  else c

/-- Number of bytes of the UTF-8 encoding of a character. -/
def utf8Len (c : Char) : ℕ :=
  if c.toNat < 0x80 then 1
  else if c.toNat < 0x800 then 2
  else if c.toNat < 0x10000 then 3
  else 4

/-- Rust `str::len` of a token: the length in bytes of its UTF-8 encoding. -/
def tokenByteLen (t : List Char) : ℕ := (t.map utf8Len).sum

/-- Models Rust `str::split` with a character predicate `p` marking
separators: fragments between separator occurrences are returned in
order, including the empty fragments produced by leading, trailing or
adjacent separators. -/
def rustSplit (p : Char → Bool) : List Char → List (List Char)
  | [] => [[]]
  | c :: cs =>
    if p c then [] :: rustSplit p cs
    else (c :: (rustSplit p cs).headD []) :: (rustSplit p cs).tail

/-- Embeds fn tokenize of src/bm25.rs: lowercase, split on every
non-alphanumeric character, keep the nonempty fragments whose UTF-8
byte length (Rust `str::len`) is at least 2. -/
def tokenize (text : List Char) : List (List Char) :=
  (rustSplit (fun c => !(rustIsAlphanumeric c)) (text.map rustLowerChar)).filter
    (fun s => !s.isEmpty && decide (2 ≤ tokenByteLen s))

/-- The tokenizer as worded by the specification claim: identical to
`tokenize` except that a token shorter than 2 characters (rather than
2 UTF-8 bytes) is dropped. -/
def specTokenize (text : List Char) : List (List Char) :=
  (rustSplit (fun c => !(rustIsAlphanumeric c)) (text.map rustLowerChar)).filter
    (fun s => !s.isEmpty && decide (2 ≤ s.length))

/-- Maximal runs of characters satisfying `q`, in input order; the
separator characters are discarded.  Used as an independent description
of splitting against which the embedded tokenizer is verified. -/
def runsP (q : Char → Bool) : List Char → List (List Char)
  | [] => []
  | c :: cs =>
    if q c then (c :: cs.takeWhile q) :: runsP q (cs.dropWhile q)
    else runsP q cs
termination_by l => l.length
decreasing_by
  all_goals simp_wf
  all_goals exact Nat.lt_succ_of_le (List.dropWhile_sublist q).length_le

/-- Maximal alphanumeric runs of a character sequence. -/
def alnumRuns (l : List Char) : List (List Char) := runsP rustIsAlphanumeric l

/-! ## BM25 keyword index (src/bm25.rs) -/

/-- Association-list lookup, modelling Rust `HashMap::get`. -/
def lookupA {α β : Type} [DecidableEq α] : List (α × β) → α → Option β
  | [], _ => none
  | (k, v) :: rest, a => if k = a then some v else lookupA rest a

/-- Embeds struct Bm25Index.  The two hash maps are modelled as
association lists; `k1` and `b` are the scoring parameters read by
fn calculate_score. -/
structure Bm25Index where
  doc_frequencies : List (List Char × ℕ)
  doc_lengths : List ℕ
  avg_doc_length : ℚ
  total_docs : ℕ
  inverted_index : List (List Char × List (ℕ × ℕ))
  k1 : ℚ
  b : ℚ

/-- Embeds fn Bm25Index::get_term_frequency: scan the term's postings
list for the document id, defaulting to 0. -/
def Bm25Index.get_term_frequency (idx : Bm25Index) (term : List Char) (doc_id : ℕ) : ℕ :=
  match lookupA idx.inverted_index term with
  | none => 0
  | some postings => ((postings.find? (fun p => p.1 == doc_id)).map (fun p => p.2)).getD 0

/-- Embeds the document-frequency lookup
`self.doc_frequencies.get(term).copied().unwrap_or(0)`. -/
def Bm25Index.docFreq (idx : Bm25Index) (term : List Char) : ℕ :=
  (lookupA idx.doc_frequencies term).getD 0

/-- Length of a document in tokens, as a rational
(`self.doc_lengths[doc_id] as f32`; out-of-range ids default to 0). -/
def Bm25Index.docLengthQ (idx : Bm25Index) (doc_id : ℕ) : ℚ :=
  (idx.doc_lengths.getD doc_id 0 : ℕ)

/-- Loop body of fn Bm25Index::calculate_score: one query term's
contribution added to the running score (the `continue` branches leave
the score unchanged).  `length_norm` is the document's length
normalization, computed once before the loop. -/
def Bm25Index.scoreStep (log : ℚ → ℚ) (idx : Bm25Index) (doc_id : ℕ) (length_norm : ℚ)
    (score : ℚ) (term : List Char) : ℚ :=
  let tf : ℚ := (idx.get_term_frequency term doc_id : ℕ)
  if tf = 0 then score
  else
    let df : ℚ := (idx.docFreq term : ℕ)
    if df = 0 then score
    else
      let idf := log (((idx.total_docs : ℚ) - df + 1 / 2) / (df + 1 / 2) + 1)
      let normalized_tf := (tf * (idx.k1 + 1)) / (tf + idx.k1 * length_norm)
      score + idf * normalized_tf

/-- Embeds fn Bm25Index::calculate_score.  `log` models `f32::ln`;
rational division by zero (Lean convention: result 0) stands in for the
unguarded f32 division, whose non-finite results are treated separately
by `lengthNormChecked`. -/
def Bm25Index.calculate_score (log : ℚ → ℚ) (idx : Bm25Index)
    (query_tokens : List (List Char)) (doc_id : ℕ) : ℚ :=
  let doc_length : ℚ := idx.docLengthQ doc_id
  let length_norm : ℚ := 1 - idx.b + idx.b * (doc_length / idx.avg_doc_length)
  query_tokens.foldl (idx.scoreStep log doc_id length_norm) 0

/-- The specification's idf formula for a term:
ln((N - df + 0.5) / (df + 0.5) + 1). -/
def Bm25Index.idfSpec (log : ℚ → ℚ) (idx : Bm25Index) (term : List Char) : ℚ :=
  log (((idx.total_docs : ℚ) - (idx.docFreq term : ℕ) + 1 / 2) /
    ((idx.docFreq term : ℕ) + 1 / 2) + 1)

/-- The specification's length normalization for a document:
(1 - b) + b * (doc_length / avg_doc_length). -/
def Bm25Index.lengthNormSpec (idx : Bm25Index) (doc_id : ℕ) : ℚ :=
  (1 - idx.b) + idx.b * (idx.docLengthQ doc_id / idx.avg_doc_length)

/-- The specification's per-term BM25 score with an explicit length
normalization value: idf(t) * (tf * (k1 + 1)) / (tf + k1 * length_norm). -/
def Bm25Index.termScoreWith (log : ℚ → ℚ) (idx : Bm25Index) (term : List Char)
    (doc_id : ℕ) (length_norm : ℚ) : ℚ :=
  idx.idfSpec log term *
    (((idx.get_term_frequency term doc_id : ℕ) : ℚ) * (idx.k1 + 1)) /
    (((idx.get_term_frequency term doc_id : ℕ) : ℚ) + idx.k1 * length_norm)

/-- The specification's per-term BM25 score:
idf(t) * (tf * (k1 + 1)) / (tf + k1 * length_norm). -/
def Bm25Index.termScoreSpec (log : ℚ → ℚ) (idx : Bm25Index) (term : List Char)
    (doc_id : ℕ) : ℚ :=
  idx.termScoreWith log term doc_id (idx.lengthNormSpec doc_id)

/-- The BM25 document score as the specification states it: the sum over
exactly those query terms with nonzero term frequency in the document and
nonzero document frequency in the corpus of the per-term score; other
terms contribute nothing. -/
def Bm25Index.specScore (log : ℚ → ℚ) (idx : Bm25Index)
    (query_tokens : List (List Char)) (doc_id : ℕ) : ℚ :=
  ((query_tokens.filter (fun t =>
      decide (idx.get_term_frequency t doc_id ≠ 0) && decide (idx.docFreq t ≠ 0))).map
    (fun t => idx.termScoreSpec log t doc_id)).sum

/-! ## Stable descending sort shared by all three search paths

Rust's `sort_by(|a, b| b.1.partial_cmp(&a.1).unwrap_or(Equal))` is a
stable sort, descending by score; on `ℚ` scores (no NaN) the comparator
is a total preorder, so the stable insertion sort below computes exactly
the same sequence. -/

/-- Stable descending insertion of one scored entry. -/
def insertDesc (x : ℕ × ℚ) : List (ℕ × ℚ) → List (ℕ × ℚ)
  | [] => [x]
  | y :: ys => if y.2 ≤ x.2 then x :: y :: ys else y :: insertDesc x ys

/-- Stable sort by score descending, ties keeping the input order. -/
def sortDesc : List (ℕ × ℚ) → List (ℕ × ℚ)
  | [] => []
  | x :: xs => insertDesc x (sortDesc xs)

/-- Per-query candidate list of fn Bm25Index::search: every document id
below total_docs whose computed score is strictly positive, paired with
its score.  This is the content of the `scores` hash map, whose keys are
the distinct ids, listed here in ascending id order. -/
def Bm25Index.scoresList (log : ℚ → ℚ) (idx : Bm25Index)
    (query_tokens : List (List Char)) : List (ℕ × ℚ) :=
  ((List.range idx.total_docs).map
    (fun d => (d, idx.calculate_score log query_tokens d))).filter
    (fun p => decide (0 < p.2))

/-- Embeds fn Bm25Index::search.  `ord` models the iteration order of
`scores.into_iter()`: Rust's per-instance hash seeding makes that order
an arbitrary permutation of the map's contents, so the model takes it as
a parameter constrained to permute its argument. -/
def Bm25Index.search (log : ℚ → ℚ) (idx : Bm25Index) (query : List Char) (limit : ℕ)
    (ord : List (ℕ × ℚ) → List (ℕ × ℚ)) : List (ℕ × ℚ) :=
  if idx.total_docs = 0 then []
  else
    let query_tokens := tokenize query
    if query_tokens = [] then []
    else (sortDesc (ord (idx.scoresList log query_tokens))).take limit

/-! ## Finiteness-tracked model of the length_norm expression

The source computes `1.0 - b + b * (doc_length / avg_doc_length)` in f32
with no guard on `avg_doc_length`.  To reason about the division-by-zero
behaviour the expression is re-embedded over `Option ℚ`, where `none`
models a non-finite f32 value (NaN or an infinity): f32 division by zero
produces a non-finite value, and in this expression every operation maps
a non-finite operand to a non-finite result (the multiplier of the
division result is finite, and no division by a non-finite value
occurs), so noneness exactly tracks non-finiteness here. -/

/-- Finiteness-tracked f32 addition. -/
def fAdd : Option ℚ → Option ℚ → Option ℚ
  | some x, some y => some (x + y)
  | _, _ => none

/-- Finiteness-tracked f32 subtraction. -/
def fSub : Option ℚ → Option ℚ → Option ℚ
  | some x, some y => some (x - y)
  | _, _ => none

/-- Finiteness-tracked f32 multiplication. -/
def fMul : Option ℚ → Option ℚ → Option ℚ
  | some x, some y => some (x * y)
  | _, _ => none

/-- Finiteness-tracked f32 division: division by zero is non-finite
(0.0/0.0 is NaN, x/0.0 is an infinity for x nonzero). -/
def fDiv : Option ℚ → Option ℚ → Option ℚ
  | some x, some y => if y = 0 then none else some (x / y)
  | _, _ => none

/-- The length_norm line of fn calculate_score,
`1.0 - self.b + self.b * (doc_length / self.avg_doc_length)`, with f32
finiteness tracked. -/
def lengthNormChecked (b doc_length avg : ℚ) : Option ℚ :=
  fAdd (fSub (some 1) (some b)) (fMul (some b) (fDiv (some doc_length) (some avg)))

/-- Modelled from the spec: the guard the specification prescribes for
the zero `avg_doc_length` case, which is absent from fn calculate_score
of src/bm25.rs — if `avg_doc_length` is zero, every term's length_norm
is to be treated as `(1 - b)`. -/
def lengthNormGuarded (b doc_length avg : ℚ) : ℚ :=
  if avg = 0 then 1 - b else 1 - b + b * (doc_length / avg)

/-! ## Vector store (src/vector.rs) -/

/-- Embeds struct VectorStore. -/
structure VectorStore where
  embeddings : List (List ℚ)
  dimension : ℕ
deriving DecidableEq

/-- The information carried by the construction error of
fn VectorStore::new: the offending index, its length and the expected
length (the spec's DimensionMismatch). -/
structure DimensionMismatch where
  index : ℕ
  found : ℕ
  expected : ℕ
deriving DecidableEq

/-- The validation loop of fn VectorStore::new: check each embedding
against the expected dimension, failing at the first mismatch with its
absolute index.  `i` is the index of the first element of `l`. -/
def checkDims (dim : ℕ) : ℕ → List (List ℚ) → Except DimensionMismatch Unit
  | _, [] => .ok ()
  | i, e :: rest =>
    if e.length ≠ dim then .error ⟨i, e.length, dim⟩ else checkDims dim (i + 1) rest

/-- Embeds fn VectorStore::new: an empty input yields the empty store of
dimension 0; otherwise the dimension is the first vector's length and
every vector is validated against it in order. -/
def VectorStore.new (embeddings : List (List ℚ)) : Except DimensionMismatch VectorStore :=
  match embeddings with
  | [] => .ok ⟨[], 0⟩
  | e0 :: rest =>
    match checkDims e0.length 0 (e0 :: rest) with
    | .ok _ => .ok ⟨e0 :: rest, e0.length⟩
    | .error err => .error err

/-- The accumulator loop of fn VectorStore::cosine_similarity: one pass
over the paired coordinates accumulating the dot product and the two
squared norms. -/
def cosLoop : List (ℚ × ℚ) → ℚ → ℚ → ℚ → ℚ × ℚ × ℚ
  | [], dot, na, nb => (dot, na, nb)
  | (x, y) :: rest, dot, na, nb => cosLoop rest (dot + x * y) (na + x * x) (nb + y * y)

/-- Embeds fn VectorStore::cosine_similarity.  `sq` models `f32::sqrt`;
the denominator is clamped below at 1e-9 before dividing. -/
def cosine_similarity (sq : ℚ → ℚ) (a b : List ℚ) : ℚ :=
  if a.length ≠ b.length then 0
  else
    let acc := cosLoop (a.zip b) 0 0 0
    let denominator := max (sq acc.2.1 * sq acc.2.2) (1 / 1000000000)
    acc.1 / denominator

/-- The specification's dot product of two vectors. -/
def dotSpec (a b : List ℚ) : ℚ := ((a.zip b).map (fun p => p.1 * p.2)).sum

/-- The specification's squared Euclidean norm of a vector. -/
def normSq (a : List ℚ) : ℚ := (a.map (fun x => x * x)).sum

/-- Embeds fn VectorStore::search: empty store or mismatched query
dimension yields the empty list; otherwise every stored embedding is
scored by cosine similarity against the query, sorted by score
descending (stable, so ties keep ascending id order) and truncated. -/
def VectorStore.search (sq : ℚ → ℚ) (s : VectorStore) (query : List ℚ) (limit : ℕ) :
    List (ℕ × ℚ) :=
  if s.embeddings = [] ∨ query.length ≠ s.dimension then []
  else
    (sortDesc (((List.range s.embeddings.length).zip s.embeddings).map
      (fun p => (p.1, cosine_similarity sq query p.2)))).take limit

/-! ## Rank fusion (src/hybrid.rs) -/

/-- Models `combined_scores.entry(idx).and_modify(s += v).or_insert(v)`:
add `v` to the entry of key `id`, or append a new entry.  New keys go to
the back, so the association list's own order is first-encounter order;
the observable iteration order is abstracted separately. -/
def upsert : List (ℕ × ℚ) → ℕ → ℚ → List (ℕ × ℚ)
  | [], id, v => [(id, v)]
  | (k, s) :: rest, id, v =>
    if k = id then (k, s + v) :: rest else (k, s) :: upsert rest id v

/-- One pass of the RRF accumulation loops of fn hybrid_search: fold a
result list into the combined-score map, entry at 0-based position
`rank` contributing `1 / (60 + (rank + 1))`.  `r` is the rank of the
first entry of `l`. -/
def rrfFold (m : List (ℕ × ℚ)) (l : List (ℕ × ℚ)) (r : ℕ) : List (ℕ × ℚ) :=
  match l with
  | [] => m
  | (id, _) :: rest => rrfFold (upsert m id (1 / (60 + ((r : ℚ) + 1)))) rest (r + 1)

/-- The combined-score map of fn hybrid_search after both accumulation
loops: keyword results first, then semantic results. -/
def combinedScores (keyword_results semantic_results : List (ℕ × ℚ)) : List (ℕ × ℚ) :=
  rrfFold (rrfFold [] keyword_results 0) semantic_results 0

/-- Embeds fn hybrid_search.  `ord` models the iteration order of
`combined_scores.into_iter()`, an arbitrary permutation of the map's
contents. -/
def hybrid_search (keyword_results semantic_results : List (ℕ × ℚ)) (limit : ℕ)
    (ord : List (ℕ × ℚ) → List (ℕ × ℚ)) : List (ℕ × ℚ) :=
  (sortDesc (ord (combinedScores keyword_results semantic_results))).take limit

/-- Association-list lookup for combined-score maps. -/
def lookupScore : List (ℕ × ℚ) → ℕ → Option ℚ
  | [], _ => none
  | (k, v) :: rest, id => if k = id then some v else lookupScore rest id

/-- Sum of the reciprocal-rank contributions of one input list to one
document id, the first entry of the list having 1-based rank `r + 1`:
each occurrence of the id at 1-based rank `rank` contributes
`1 / (60 + rank)`. -/
def rrfContribAux (r : ℕ) (id : ℕ) : List (ℕ × ℚ) → ℚ
  | [] => 0
  | (j, _) :: rest =>
    (if j = id then 1 / (60 + ((r : ℚ) + 1)) else 0) + rrfContribAux (r + 1) id rest

/-- The specification's RRF contribution of one input list to one
document id: the sum of `1 / (60 + rank)` over the id's occurrences,
`rank` being the occurrence's 1-based position in the list. -/
def rrfContrib (l : List (ℕ × ℚ)) (id : ℕ) : ℚ := rrfContribAux 0 id l

/-! ## Lemmas: the stable descending sort -/

theorem insertDesc_perm (x : ℕ × ℚ) (l : List (ℕ × ℚ)) :
    List.Perm (insertDesc x l) (x :: l) := by
  induction l with
  | nil => simp [insertDesc]
  | cons y ys ih =>
    by_cases h : y.2 ≤ x.2
    · simp [insertDesc, h]
    · simp only [insertDesc, if_neg h]
      exact (ih.cons y).trans (List.Perm.swap x y ys)

theorem sortDesc_perm (l : List (ℕ × ℚ)) : List.Perm (sortDesc l) l := by
  induction l with
  | nil => simp [sortDesc]
  | cons x xs ih => exact (insertDesc_perm x (sortDesc xs)).trans (ih.cons x)

theorem insertDesc_sorted (x : ℕ × ℚ) (l : List (ℕ × ℚ))
    (h : l.Pairwise (fun a b => b.2 ≤ a.2)) :
    (insertDesc x l).Pairwise (fun a b => b.2 ≤ a.2) := by
  induction l with
  | nil => simp [insertDesc]
  | cons y ys ih =>
    rcases List.pairwise_cons.1 h with ⟨hy, hys⟩
    by_cases hc : y.2 ≤ x.2
    · simp only [insertDesc, if_pos hc]
      refine List.pairwise_cons.2 ⟨?_, h⟩
      intro z hz
      rcases List.mem_cons.1 hz with rfl | hz'
      · exact hc
      · exact le_trans (hy z hz') hc
    · simp only [insertDesc, if_neg hc]
      refine List.pairwise_cons.2 ⟨?_, ih hys⟩
      intro z hz
      rcases List.mem_cons.1 ((insertDesc_perm x ys).mem_iff.1 hz) with rfl | hz'
      · exact le_of_not_le hc
      · exact hy z hz'

theorem sortDesc_sorted (l : List (ℕ × ℚ)) :
    (sortDesc l).Pairwise (fun a b => b.2 ≤ a.2) := by
  induction l with
  | nil => simp [sortDesc]
  | cons x xs ih => exact insertDesc_sorted x (sortDesc xs) ih

/-- Two permuted candidate lists with pairwise distinct scores sort to
the same sequence: the sort order is then fully determined. -/
theorem sortDesc_eq_of_perm (l1 l2 : List (ℕ × ℚ)) (hp : List.Perm l1 l2)
    (hd : l1.Pairwise (fun a b => a.2 ≠ b.2)) : sortDesc l1 = sortDesc l2 := by
  have hperm : List.Perm (sortDesc l1) (sortDesc l2) :=
    (sortDesc_perm l1).trans (hp.trans (sortDesc_perm l2).symm)
  have hd1 : (sortDesc l1).Pairwise (fun a b => a.2 ≠ b.2) :=
    ((sortDesc_perm l1).pairwise_iff (fun h => Ne.symm h)).2 hd
  have hd2 : (sortDesc l2).Pairwise (fun a b => a.2 ≠ b.2) :=
    ((sortDesc_perm l2).pairwise_iff (fun h => Ne.symm h)).2 ((hp.pairwise_iff (fun h => Ne.symm h)).1 hd)
  have hs1 : (sortDesc l1).Pairwise (fun a b => b.2 < a.2) :=
    ((sortDesc_sorted l1).and hd1).imp fun hab => lt_of_le_of_ne hab.1 hab.2.symm
  have hs2 : (sortDesc l2).Pairwise (fun a b => b.2 < a.2) :=
    ((sortDesc_sorted l2).and hd2).imp fun hab => lt_of_le_of_ne hab.1 hab.2.symm
  haveI : IsAntisymm (ℕ × ℚ) (fun a b => b.2 < a.2) :=
    ⟨fun a b h1 h2 => absurd (lt_trans h1 h2) (lt_irrefl _)⟩
  exact List.eq_of_perm_of_sorted hperm hs1 hs2

/-! ## Lemmas: the BM25 scoring loop -/

theorem foldl_scoreStep (log : ℚ → ℚ) (idx : Bm25Index) (doc_id : ℕ) (ln : ℚ) :
    ∀ (q : List (List Char)) (a : ℚ),
      q.foldl (idx.scoreStep log doc_id ln) a =
        a + ((q.filter (fun t =>
            decide (idx.get_term_frequency t doc_id ≠ 0) && decide (idx.docFreq t ≠ 0))).map
          (fun t => idx.termScoreWith log t doc_id ln)).sum := by
  intro q
  induction q with
  | nil => intro a; simp
  | cons t ts ih =>
    intro a
    by_cases h1 : idx.get_term_frequency t doc_id = 0
    · simp [List.foldl_cons, Bm25Index.scoreStep, h1, ih]
    · by_cases h2 : idx.docFreq t = 0
      · simp [List.foldl_cons, Bm25Index.scoreStep, h1, h2, ih]
      · simp only [List.foldl_cons]
        rw [ih]
        simp [Bm25Index.scoreStep, Bm25Index.termScoreWith, Bm25Index.idfSpec, h1, h2]
        ring

theorem calculate_score_eq_spec (log : ℚ → ℚ) (idx : Bm25Index)
    (q : List (List Char)) (doc_id : ℕ) :
    idx.calculate_score log q doc_id = idx.specScore log q doc_id := by
  show q.foldl
      (idx.scoreStep log doc_id
        (1 - idx.b + idx.b * (idx.docLengthQ doc_id / idx.avg_doc_length))) 0 = _
  rw [foldl_scoreStep]
  simp [Bm25Index.specScore, Bm25Index.termScoreSpec, Bm25Index.lengthNormSpec]

/-! ## Sample inputs used by witnesses -/

/-- Sample index: 3 documents with token counts 4, 6 and 5, average
length 5; the term "ab" occurs twice in document 1 and in no other
document. -/
def sampleIdx : Bm25Index :=
  ⟨[(['a', 'b'], 1)], [4, 6, 5], 5, 3, [(['a', 'b'], [(1, 2)])], 6 / 5, 3 / 4⟩

/-- Sample index with no documents. -/
def emptyIdx : Bm25Index := ⟨[], [], 0, 0, [], 6 / 5, 3 / 4⟩

/-! ## Claim C1 -/

/-- C1: for every index state with total_docs > 0 and every tokenized
query, the BM25 score of a document equals the sum, over exactly those
query terms with nonzero term frequency in the document and nonzero
document frequency in the corpus, of
idf(t) * (tf * (k1 + 1)) / (tf + k1 * length_norm), where
idf(t) = ln((N - df(t) + 0.5) / (df(t) + 0.5) + 1) and
length_norm = (1 - b) + b * (doc_length / avg_doc_length); terms absent
from the document or unseen in the corpus contribute exactly zero to the
sum. -/
theorem c1_bm25_score_formula (log : ℚ → ℚ) (idx : Bm25Index)
    (q : List (List Char)) (doc_id : ℕ) (htotal : 0 < idx.total_docs) :
    idx.calculate_score log q doc_id = idx.specScore log q doc_id :=
  calculate_score_eq_spec log idx q doc_id

/-- Witness for C1 at the sample index, query ["ab"], document 1. -/
theorem c1_bm25_score_formula_witness :
    0 < sampleIdx.total_docs ∧
      sampleIdx.calculate_score (fun x => x) [['a', 'b']] 1 =
        sampleIdx.specScore (fun x => x) [['a', 'b']] 1 :=
  ⟨by decide, c1_bm25_score_formula (fun x => x) sampleIdx [['a', 'b']] 1 (by decide)⟩

/-! ## Lemmas: the tokenizer split -/

theorem rustSplit_ne_nil (p : Char → Bool) (l : List Char) : rustSplit p l ≠ [] := by
  cases l with
  | nil => simp [rustSplit]
  | cons c cs => by_cases h : p c <;> simp [rustSplit, h]

theorem rustSplit_headD (p : Char → Bool) (l : List Char) :
    (rustSplit p l).headD [] = l.takeWhile (fun c => !p c) := by
  induction l with
  | nil => simp [rustSplit]
  | cons c cs ih =>
    by_cases h : p c
    · simp [rustSplit, h]
    · simp only [rustSplit, if_neg h, List.headD_cons, ih, List.takeWhile_cons]
      simp [h]

theorem rustSplit_tail (p : Char → Bool) (l : List Char) :
    (rustSplit p l).tail =
      if l.dropWhile (fun c => !p c) = [] then []
      else rustSplit p (l.dropWhile (fun c => !p c)).tail := by
  induction l with
  | nil => simp [rustSplit]
  | cons c cs ih =>
    by_cases h : p c
    · simp [rustSplit, h]
    · simp [rustSplit, h, ih]

theorem dropWhile_head_false (q : Char → Bool) :
    ∀ (l : List Char) (d : Char) (rest : List Char),
      l.dropWhile q = d :: rest → q d = false := by
  intro l
  induction l with
  | nil => intro d rest h; simp [List.dropWhile] at h
  | cons c cs ih =>
    intro d rest h
    by_cases hc : q c
    · rw [List.dropWhile_cons_of_pos hc] at h
      exact ih d rest h
    · rw [List.dropWhile_cons_of_neg hc] at h
      cases h
      exact Bool.eq_false_iff.2 hc

theorem filter_rustSplit_eq_runsP (q : Char → Bool) :
    ∀ (n : ℕ) (l : List Char), l.length ≤ n →
      (rustSplit (fun c => !(q c)) l).filter (fun t => !t.isEmpty) = runsP q l := by
  intro n
  induction n with
  | zero =>
    intro l hl
    have hnil : l = [] := List.length_eq_zero.1 (Nat.le_zero.1 hl)
    subst hnil
    simp [rustSplit, runsP]
  | succ n ih =>
    intro l hl
    cases l with
    | nil => simp [rustSplit, runsP]
    | cons c cs =>
      have hcs : cs.length ≤ n := Nat.le_of_succ_le_succ hl
      by_cases hc : q c
      · have hsplit : rustSplit (fun x => !(q x)) (c :: cs) =
            (c :: (rustSplit (fun x => !(q x)) cs).headD []) ::
              (rustSplit (fun x => !(q x)) cs).tail := by
          simp [rustSplit, hc]
        rw [hsplit, List.filter_cons]
        have hhead : (!((c :: (rustSplit (fun x => !(q x)) cs).headD []).isEmpty)) = true := by
          simp
        rw [if_pos hhead]
        rw [rustSplit_headD, rustSplit_tail]
        have hTake : (cs.takeWhile fun x => !!(q x)) = cs.takeWhile q := by
          simp [Bool.not_not]
        have hDrop : (cs.dropWhile fun x => !!(q x)) = cs.dropWhile q := by
          simp [Bool.not_not]
        rw [hTake, hDrop]
        have hruns : runsP q (c :: cs) =
            (c :: cs.takeWhile q) :: runsP q (cs.dropWhile q) := by
          simp [runsP, hc]
        rw [hruns]
        refine congrArg (fun t => (c :: cs.takeWhile q) :: t) ?_
        rcases hd : cs.dropWhile q with _ | ⟨d, rest⟩
        · simp [runsP]
        · rw [if_neg (by simp)]
          have hdq : q d = false := dropWhile_head_false q cs d rest hd
          have hrest : rest.length ≤ n := by
            have h1 : (cs.dropWhile q).length ≤ cs.length :=
              (List.dropWhile_sublist q).length_le
            rw [hd] at h1
            exact le_trans (Nat.le_of_succ_le h1) hcs
          have hruns2 : runsP q (d :: rest) = runsP q rest := by
            simp [runsP, hdq]
          rw [List.tail_cons, hruns2]
          exact ih rest hrest
      · have hsplit : rustSplit (fun x => !(q x)) (c :: cs) =
            [] :: rustSplit (fun x => !(q x)) cs := by
          simp [rustSplit, hc]
        rw [hsplit, List.filter_cons]
        have hruns : runsP q (c :: cs) = runsP q cs := by
          simp [runsP, hc]
        simp only [List.isEmpty_nil, Bool.not_true, if_false, Bool.false_eq_true, ite_false]
        rw [hruns]
        exact ih cs hcs

/-! ## Claim C5 -/

/-- C5 counterexample: on the single-character input "é" the tokenizer
keeps the token "é" (its UTF-8 byte length is 2), whereas the claim's
description (drop tokens shorter than 2 characters) requires dropping
it. -/
theorem c5_counterexample :
    tokenize ['é'] = [['é']] ∧ specTokenize ['é'] = [] ∧
      tokenize ['é'] ≠ specTokenize ['é'] := by
  refine ⟨?_, ?_, ?_⟩ <;> decide

/-- C5 amended: the tokenizer lowercases all characters, splits on every
non-alphanumeric character, drops empty fragments, and drops every token
whose UTF-8 byte length (not character count) is shorter than 2; output
is the in-order sequence of maximal alphanumeric runs of the lowercased
input whose byte length is at least 2, duplicates preserved, and the
function is total. -/
theorem c5_tokenizer_amended (text : List Char) :
    tokenize text = (alnumRuns (text.map rustLowerChar)).filter
      (fun t => decide (2 ≤ tokenByteLen t)) := by
  unfold tokenize alnumRuns
  rw [← filter_rustSplit_eq_runsP rustIsAlphanumeric (text.map rustLowerChar).length
    (text.map rustLowerChar) le_rfl]
  rw [List.filter_filter]
  refine List.filter_congr ?_
  intro t ht
  exact Bool.and_comm (!t.isEmpty) (decide (2 ≤ tokenByteLen t))

/-! ## Lemmas: the RRF accumulation map -/

theorem lookupScore_upsert_self (id : ℕ) (v : ℚ) :
    ∀ m : List (ℕ × ℚ),
      lookupScore (upsert m id v) id = some ((lookupScore m id).getD 0 + v) := by
  intro m
  induction m with
  | nil => simp [upsert, lookupScore]
  | cons hd rest ih =>
    obtain ⟨k, s⟩ := hd
    by_cases hk : k = id
    · subst hk
      simp [upsert, lookupScore]
    · simp [upsert, lookupScore, hk, ih]

theorem lookupScore_upsert_other (id j : ℕ) (v : ℚ) (hj : j ≠ id) :
    ∀ m : List (ℕ × ℚ), lookupScore (upsert m id v) j = lookupScore m j := by
  intro m
  induction m with
  | nil =>
    show lookupScore [(id, v)] j = lookupScore [] j
    have hij : ¬(id = j) := fun h => hj h.symm
    simp [lookupScore, hij]
  | cons hd rest ih =>
    obtain ⟨k, s⟩ := hd
    by_cases hk : k = id
    · subst hk
      have hkj : ¬(k = j) := fun h => hj h.symm
      simp [upsert, lookupScore, hkj]
    · by_cases hkj : k = j
      · subst hkj
        simp [upsert, lookupScore, hk, lookupScore]
      · simp [upsert, lookupScore, hk, hkj, ih]

theorem mem_upsert_keys (id j : ℕ) (v : ℚ) :
    ∀ m : List (ℕ × ℚ),
      (j ∈ (upsert m id v).map Prod.fst) ↔ (j = id ∨ j ∈ m.map Prod.fst) := by
  intro m
  induction m with
  | nil => simp [upsert]
  | cons hd rest ih =>
    obtain ⟨k, s⟩ := hd
    by_cases hk : k = id
    · subst hk
      simp [upsert]
    · simp [upsert, hk, ih]
      tauto

theorem upsert_keys_nodup (id : ℕ) (v : ℚ) :
    ∀ m : List (ℕ × ℚ),
      (m.map Prod.fst).Nodup → ((upsert m id v).map Prod.fst).Nodup := by
  intro m
  induction m with
  | nil => simp [upsert]
  | cons hd rest ih =>
    obtain ⟨k, s⟩ := hd
    intro hnd
    rw [List.map_cons, List.nodup_cons] at hnd
    by_cases hk : k = id
    · subst hk
      simpa [upsert, List.nodup_cons] using hnd
    · rw [show upsert ((k, s) :: rest) id v = (k, s) :: upsert rest id v by
        simp [upsert, hk]]
      rw [List.map_cons, List.nodup_cons]
      refine ⟨?_, ih hnd.2⟩
      rw [mem_upsert_keys]
      rintro (rfl | hmem)
      · exact hk rfl
      · exact hnd.1 hmem

theorem lookupScore_eq_none (id : ℕ) :
    ∀ m : List (ℕ × ℚ), lookupScore m id = none ↔ id ∉ m.map Prod.fst := by
  intro m
  induction m with
  | nil => simp [lookupScore]
  | cons hd rest ih =>
    obtain ⟨k, s⟩ := hd
    by_cases hk : k = id
    · constructor
      · intro h
        rw [show lookupScore ((k, s) :: rest) id = some s from by simp [lookupScore, hk]] at h
        exact absurd h (Option.some_ne_none s)
      · intro h
        exact absurd (by simp [hk] : id ∈ ((k, s) :: rest).map Prod.fst) h
    · simp only [lookupScore, if_neg hk, List.map_cons, List.mem_cons]
      rw [ih]
      constructor
      · intro h hmem
        rcases hmem with h1 | h2
        · exact hk h1.symm
        · exact h h2
      · intro h hmem
        exact h (Or.inr hmem)

theorem lookupScore_of_mem (k : ℕ) (v : ℚ) :
    ∀ m : List (ℕ × ℚ),
      (m.map Prod.fst).Nodup → (k, v) ∈ m → lookupScore m k = some v := by
  intro m
  induction m with
  | nil => simp
  | cons hd rest ih =>
    obtain ⟨a, b⟩ := hd
    intro hnd hmem
    rw [List.map_cons, List.nodup_cons] at hnd
    rcases List.mem_cons.1 hmem with heq | hmem'
    · cases heq
      simp [lookupScore]
    · by_cases hak : a = k
      · subst hak
        exact absurd (List.mem_map_of_mem Prod.fst hmem') hnd.1
      · simp [lookupScore, hak, ih hnd.2 hmem']

theorem rrfFold_lookup (id : ℕ) :
    ∀ (l m : List (ℕ × ℚ)) (r : ℕ),
      lookupScore (rrfFold m l r) id =
        if id ∈ m.map Prod.fst ∨ id ∈ l.map Prod.fst
        then some ((lookupScore m id).getD 0 + rrfContribAux r id l)
        else none := by
  intro l
  induction l with
  | nil =>
    intro m r
    by_cases hm : id ∈ m.map Prod.fst
    · have hne : lookupScore m id ≠ none := fun h => ((lookupScore_eq_none id m).1 h) hm
      obtain ⟨s, hs⟩ := Option.ne_none_iff_exists'.1 hne
      simp [rrfFold, rrfContribAux, hm, hs]
    · have hnone : lookupScore m id = none := (lookupScore_eq_none id m).2 hm
      simp [rrfFold, rrfContribAux, hm, hnone]
  | cons hd tl ih =>
    intro m r
    obtain ⟨j, s⟩ := hd
    rw [show rrfFold m ((j, s) :: tl) r =
      rrfFold (upsert m j (1 / (60 + ((r : ℚ) + 1)))) tl (r + 1) from rfl]
    rw [ih]
    by_cases hj : j = id
    · subst hj
      have hmem : j ∈ (upsert m j (1 / (60 + ((r : ℚ) + 1)))).map Prod.fst :=
        (mem_upsert_keys j j _ m).2 (Or.inl rfl)
      rw [if_pos (Or.inl hmem), if_pos (Or.inr (by simp))]
      rw [lookupScore_upsert_self]
      simp [rrfContribAux]
      ring
    · have hmem : id ∈ (upsert m j (1 / (60 + ((r : ℚ) + 1)))).map Prod.fst ↔
          id ∈ m.map Prod.fst := by
        rw [mem_upsert_keys]
        constructor
        · rintro (h | h)
          · exact absurd h.symm hj
          · exact h
        · exact Or.inr
      rw [lookupScore_upsert_other j id _ (fun h => hj h.symm)]
      have hcond : (id ∈ (upsert m j (1 / (60 + ((r : ℚ) + 1)))).map Prod.fst ∨
            id ∈ tl.map Prod.fst) ↔
          (id ∈ m.map Prod.fst ∨ id ∈ ((j, s) :: tl).map Prod.fst) := by
        rw [hmem]
        simp only [List.map_cons, List.mem_cons]
        constructor
        · rintro (h | h)
          · exact Or.inl h
          · exact Or.inr (Or.inr h)
        · rintro (h | h | h)
          · exact Or.inl h
          · exact absurd h.symm hj
          · exact Or.inr h
      by_cases hc : id ∈ m.map Prod.fst ∨ id ∈ ((j, s) :: tl).map Prod.fst
      · rw [if_pos (hcond.2 hc), if_pos hc]
        simp [rrfContribAux, hj]
      · rw [if_neg (fun h => hc (hcond.1 h)), if_neg hc]

theorem rrfFold_keys_nodup :
    ∀ (l m : List (ℕ × ℚ)) (r : ℕ),
      (m.map Prod.fst).Nodup → ((rrfFold m l r).map Prod.fst).Nodup := by
  intro l
  induction l with
  | nil => intro m r h; simpa [rrfFold] using h
  | cons hd tl ih =>
    intro m r h
    obtain ⟨j, s⟩ := hd
    exact ih _ _ (upsert_keys_nodup j _ m h)

theorem mem_rrfFold_keys (id : ℕ) :
    ∀ (l m : List (ℕ × ℚ)) (r : ℕ),
      id ∈ (rrfFold m l r).map Prod.fst ↔
        (id ∈ m.map Prod.fst ∨ id ∈ l.map Prod.fst) := by
  intro l
  induction l with
  | nil => intro m r; simp [rrfFold]
  | cons hd tl ih =>
    intro m r
    obtain ⟨j, s⟩ := hd
    rw [show rrfFold m ((j, s) :: tl) r =
      rrfFold (upsert m j (1 / (60 + ((r : ℚ) + 1)))) tl (r + 1) from rfl]
    rw [ih, mem_upsert_keys]
    simp only [List.map_cons, List.mem_cons]
    tauto

theorem rrfContribAux_zero (id : ℕ) :
    ∀ (l : List (ℕ × ℚ)) (r : ℕ), id ∉ l.map Prod.fst → rrfContribAux r id l = 0 := by
  intro l
  induction l with
  | nil => intro r _; rfl
  | cons hd tl ih =>
    intro r h
    obtain ⟨j, s⟩ := hd
    simp only [List.map_cons, List.mem_cons] at h
    push_neg at h
    rw [show rrfContribAux r id ((j, s) :: tl) =
      (if j = id then 1 / (60 + ((r : ℚ) + 1)) else 0) + rrfContribAux (r + 1) id tl
      from rfl]
    rw [if_neg (fun hh => h.1 hh.symm), ih (r + 1) h.2, zero_add]

/-- The combined-score map assigns every id occurring in either input
list the sum of its two RRF contributions, and contains no other id. -/
theorem combinedScores_lookup (kw sem : List (ℕ × ℚ)) (id : ℕ) :
    lookupScore (combinedScores kw sem) id =
      if id ∈ kw.map Prod.fst ∨ id ∈ sem.map Prod.fst
      then some (rrfContrib kw id + rrfContrib sem id)
      else none := by
  unfold combinedScores rrfContrib
  rw [rrfFold_lookup]
  have hkeys : id ∈ (rrfFold [] kw 0).map Prod.fst ↔ id ∈ kw.map Prod.fst := by
    rw [mem_rrfFold_keys]
    simp
  have hinner := rrfFold_lookup id kw [] 0
  simp only [List.map_nil, List.not_mem_nil, false_or, lookupScore] at hinner
  by_cases hkw : id ∈ kw.map Prod.fst
  · rw [if_pos (Or.inl (hkeys.2 hkw)), if_pos (Or.inl hkw)]
    rw [if_pos hkw] at hinner
    rw [hinner]
    simp
  · by_cases hsem : id ∈ sem.map Prod.fst
    · rw [if_pos (Or.inr hsem), if_pos (Or.inr hsem)]
      rw [if_neg hkw] at hinner
      rw [hinner]
      simp [rrfContribAux_zero id kw 0 hkw]
    · rw [if_neg, if_neg]
      · rintro (h | h)
        · exact hkw h
        · exact hsem h
      · rintro (h | h)
        · exact hkw (hkeys.1 h)
        · exact hsem h

/-- The combined-score map's keys are distinct. -/
theorem combinedScores_keys_nodup (kw sem : List (ℕ × ℚ)) :
    ((combinedScores kw sem).map Prod.fst).Nodup := by
  unfold combinedScores
  exact rrfFold_keys_nodup sem _ 0 (rrfFold_keys_nodup kw [] 0 (by simp))

/-- Sorting then truncating is insensitive to the iteration order of the
candidate list when all scores are pairwise distinct. -/
theorem sortTake_eq_of_ord (c : List (ℕ × ℚ)) (limit : ℕ)
    (ord1 ord2 : List (ℕ × ℚ) → List (ℕ × ℚ))
    (h1 : List.Perm (ord1 c) c) (h2 : List.Perm (ord2 c) c)
    (hd : c.Pairwise (fun x y => x.2 ≠ y.2)) :
    (sortDesc (ord1 c)).take limit = (sortDesc (ord2 c)).take limit := by
  have heq : sortDesc (ord1 c) = sortDesc (ord2 c) :=
    sortDesc_eq_of_perm _ _ (h1.trans h2.symm)
      ((h1.pairwise_iff (fun h => Ne.symm h)).2 hd)
  rw [heq]

/-! ## Claim C2 -/

/-- C2: for every pair of input lists and every limit, hybrid_search
assigns each document id a fused score equal to the sum of 1/(60 + rank)
over its occurrences in the two input lists, rank being the 1-based
position within the list and raw input scores being ignored; an id in
both lists gets the sum of its two per-list contributions, an id in only
one list gets only that contribution; and the result is sorted by fused
score descending and truncated to limit. -/
theorem c2_hybrid_rrf (kw sem : List (ℕ × ℚ)) (limit : ℕ)
    (ord : List (ℕ × ℚ) → List (ℕ × ℚ)) (hord : ∀ l, List.Perm (ord l) l) :
    (∀ id, lookupScore (combinedScores kw sem) id =
      if id ∈ kw.map Prod.fst ∨ id ∈ sem.map Prod.fst
      then some (rrfContrib kw id + rrfContrib sem id)
      else none) ∧
    (∀ e ∈ hybrid_search kw sem limit ord,
      e.2 = rrfContrib kw e.1 + rrfContrib sem e.1) ∧
    (hybrid_search kw sem limit ord).Pairwise (fun x y => y.2 ≤ x.2) ∧
    (hybrid_search kw sem limit ord).length ≤ limit := by
  refine ⟨fun id => combinedScores_lookup kw sem id, ?_, ?_, ?_⟩
  · intro e he
    have h1 : e ∈ sortDesc (ord (combinedScores kw sem)) := List.mem_of_mem_take he
    have h2 : e ∈ combinedScores kw sem :=
      ((sortDesc_perm _).trans (hord _)).mem_iff.1 h1
    obtain ⟨i, v⟩ := e
    have h3 : lookupScore (combinedScores kw sem) i = some v :=
      lookupScore_of_mem i v _ (combinedScores_keys_nodup kw sem) h2
    rw [combinedScores_lookup] at h3
    by_cases hc : i ∈ kw.map Prod.fst ∨ i ∈ sem.map Prod.fst
    · rw [if_pos hc] at h3
      exact (Option.some_inj.1 h3).symm
    · rw [if_neg hc] at h3
      exact absurd h3 (by simp)
  · exact (sortDesc_sorted (ord (combinedScores kw sem))).sublist
      (List.take_sublist limit _)
  · exact List.length_take_le limit _

/-- Witness for C2: on the lists of Scenario C, document 5 is looked up
in the combined map with the sum of its two contributions. -/
theorem c2_hybrid_rrf_witness :
    lookupScore (combinedScores [(5, 0), (7, 0)] [(7, 0), (5, 0)]) 5 =
      some (rrfContrib [(5, 0), (7, 0)] 5 + rrfContrib [(7, 0), (5, 0)] 5) := by
  have h := (c2_hybrid_rrf [(5, 0), (7, 0)] [(7, 0), (5, 0)] 10 (fun l => l)
    (fun l => List.Perm.refl l)).1 5
  rw [h, if_pos]
  exact Or.inl (by decide)

/-! ## Claim C9 -/

/-- C9: each document id occurs at most once in the output of
hybrid_search, even when it occurs in both input lists or repeatedly
within one list: every occurrence's contribution is merged into the id's
single accumulated entry. -/
theorem c9_hybrid_nodup_ids (kw sem : List (ℕ × ℚ)) (limit : ℕ)
    (ord : List (ℕ × ℚ) → List (ℕ × ℚ)) (hord : ∀ l, List.Perm (ord l) l) :
    ((hybrid_search kw sem limit ord).map Prod.fst).Nodup := by
  have h1 : ((combinedScores kw sem).map Prod.fst).Nodup :=
    combinedScores_keys_nodup kw sem
  have h2 : List.Perm ((sortDesc (ord (combinedScores kw sem))).map Prod.fst)
      ((combinedScores kw sem).map Prod.fst) :=
    ((sortDesc_perm _).trans (hord _)).map Prod.fst
  have h3 : ((sortDesc (ord (combinedScores kw sem))).map Prod.fst).Nodup :=
    h2.nodup_iff.2 h1
  exact h3.sublist ((List.take_sublist limit _).map Prod.fst)

/-- Witness for C9: id 1 occurs twice in the keyword list and once in
the semantic list, yet at most once in the output. -/
theorem c9_hybrid_nodup_ids_witness :
    ((hybrid_search [(1, 0), (1, 0)] [(1, 0)] 5 (fun l => l)).map Prod.fst).Nodup :=
  c9_hybrid_nodup_ids [(1, 0), (1, 0)] [(1, 0)] 5 (fun l => l)
    (fun l => List.Perm.refl l)

/-! ## Claim C6 -/

/-- C6 counterexample: with two tied fused scores (the two ids swap
ranks between the two lists), two valid hash-map iteration orders give
hybrid_search outputs that differ in the order of the tied entries
(limit 2), and when the limit cuts across the tie (limit 1) they even
return different entry sets; so repeated calls are not guaranteed to
return identical sequences. -/
theorem c6_counterexample :
    (¬ (∀ (ord1 ord2 : List (ℕ × ℚ) → List (ℕ × ℚ)),
        (∀ l, List.Perm (ord1 l) l) → (∀ l, List.Perm (ord2 l) l) →
        hybrid_search [(0, 0), (1, 0)] [(1, 0), (0, 0)] 2 ord1 =
          hybrid_search [(0, 0), (1, 0)] [(1, 0), (0, 0)] 2 ord2)) ∧
    (¬ (∀ (ord1 ord2 : List (ℕ × ℚ) → List (ℕ × ℚ)),
        (∀ l, List.Perm (ord1 l) l) → (∀ l, List.Perm (ord2 l) l) →
        ((hybrid_search [(0, 0), (1, 0)] [(1, 0), (0, 0)] 1 ord1).map Prod.fst).Perm
          ((hybrid_search [(0, 0), (1, 0)] [(1, 0), (0, 0)] 1 ord2).map Prod.fst))) := by
  constructor
  · intro h
    have heq := h (fun l => l) List.reverse (fun l => List.Perm.refl l)
      (fun l => l.reverse_perm)
    norm_num [hybrid_search, combinedScores, rrfFold, upsert, sortDesc, insertDesc] at heq
  · intro h
    have hperm := h (fun l => l) List.reverse (fun l => List.Perm.refl l)
      (fun l => l.reverse_perm)
    have h1 : hybrid_search [(0, 0), (1, 0)] [(1, 0), (0, 0)] 1 (fun l => l) =
        [(0, 1 / 61 + 1 / 62)] := by
      norm_num [hybrid_search, combinedScores, rrfFold, upsert, sortDesc, insertDesc]
    have h2 : hybrid_search [(0, 0), (1, 0)] [(1, 0), (0, 0)] 1 List.reverse =
        [(1, 1 / 61 + 1 / 62)] := by
      norm_num [hybrid_search, combinedScores, rrfFold, upsert, sortDesc, insertDesc]
    rw [h1, h2] at hperm
    have h0 : (0 : ℕ) ∈ [(1 : ℕ)] := hperm.mem_iff.1 (by simp)
    simp at h0

/-- C6 amended: vector search returns identical ordered sequences on
repeated calls unconditionally; BM25 search and hybrid fusion pass
their candidates through a freshly seeded hash map whose iteration
order feeds a stable sort before truncation, so neither the relative
order of tied entries nor, when the limit truncates within a tied
group, the returned entry set is guaranteed to repeat across calls;
whenever the candidate scores are pairwise distinct, both return
identical ordered sequences on repeated calls. -/
theorem c6_determinism_amended (log sq : ℚ → ℚ) (idx : Bm25Index) (q : List Char)
    (st : VectorStore) (qe : List ℚ) (kw sem : List (ℕ × ℚ)) (limit : ℕ)
    (ord1 ord2 : List (ℕ × ℚ) → List (ℕ × ℚ))
    (h1 : ∀ l, List.Perm (ord1 l) l) (h2 : ∀ l, List.Perm (ord2 l) l) :
    ((combinedScores kw sem).Pairwise (fun x y => x.2 ≠ y.2) →
      hybrid_search kw sem limit ord1 = hybrid_search kw sem limit ord2) ∧
    ((idx.scoresList log (tokenize q)).Pairwise (fun x y => x.2 ≠ y.2) →
      idx.search log q limit ord1 = idx.search log q limit ord2) ∧
    st.search sq qe limit = st.search sq qe limit := by
  refine ⟨?_, ?_, rfl⟩
  · intro hd
    unfold hybrid_search
    rw [sortTake_eq_of_ord _ limit ord1 ord2 (h1 _) (h2 _) hd]
  · intro hd
    unfold Bm25Index.search
    by_cases ht : idx.total_docs = 0
    · simp [ht]
    · by_cases hq : tokenize q = []
      · simp [ht, hq]
      · simp only [if_neg ht, if_neg hq]
        rw [sortTake_eq_of_ord _ limit ord1 ord2 (h1 _) (h2 _) hd]

/-- Witness for C6 amended: a single-candidate hybrid fusion is
order-independent. -/
theorem c6_determinism_amended_witness :
    hybrid_search [(0, 0)] [] 1 (fun l => l) = hybrid_search [(0, 0)] [] 1 List.reverse := by
  refine (c6_determinism_amended (fun x => x) (fun x => x) emptyIdx [] ⟨[], 0⟩ []
    [(0, 0)] [] 1 (fun l => l) List.reverse (fun l => List.Perm.refl l)
    (fun l => l.reverse_perm)).1 ?_
  norm_num [combinedScores, rrfFold, upsert]

/-! ## Lemmas: the VectorStore construction check -/

theorem checkDims_ok (dim : ℕ) :
    ∀ (l : List (List ℚ)) (i : ℕ),
      (∀ v ∈ l, v.length = dim) → checkDims dim i l = .ok () := by
  intro l
  induction l with
  | nil => intro i _; rfl
  | cons e rest ih =>
    intro i h
    have he : e.length = dim := h e (List.mem_cons_self e rest)
    rw [show checkDims dim i (e :: rest) =
      if e.length ≠ dim then .error ⟨i, e.length, dim⟩ else checkDims dim (i + 1) rest
      from rfl]
    rw [if_neg (by simp [he])]
    exact ih (i + 1) (fun v hv => h v (List.mem_cons_of_mem e hv))

theorem checkDims_err (dim : ℕ) :
    ∀ (l : List (List ℚ)) (i0 k : ℕ),
      k < l.length →
      (l.getD k []).length ≠ dim →
      (∀ j, j < k → (l.getD j []).length = dim) →
      checkDims dim i0 l = .error ⟨i0 + k, (l.getD k []).length, dim⟩ := by
  intro l
  induction l with
  | nil => intro i0 k hk _ _; exact absurd hk (by simp)
  | cons e rest ih =>
    intro i0 k hk hbad hgood
    cases k with
    | zero =>
      simp only [List.getD_cons_zero] at hbad ⊢
      simp [checkDims, hbad]
    | succ m =>
      have he : e.length = dim := by
        have h0 := hgood 0 (Nat.succ_pos m)
        simpa using h0
      simp only [List.getD_cons_succ] at hbad ⊢
      rw [show checkDims dim i0 (e :: rest) = checkDims dim (i0 + 1) rest from by
        simp [checkDims, he]]
      rw [ih (i0 + 1) m (Nat.lt_of_succ_lt_succ (by simpa using hk)) hbad
        (fun j hj => by simpa using hgood (j + 1) (Nat.succ_lt_succ hj))]
      have harith : i0 + 1 + m = i0 + (m + 1) := by omega
      rw [harith]

/-! ## Claim C4 -/

/-- C4: constructing a VectorStore from an empty sequence succeeds with
dimension 0 and no vectors; from a non-empty sequence the dimension is
fixed to the first vector's length, construction succeeds when every
vector has that length, and fails with a DimensionMismatch naming the
first offending index, its length and the expected length when some
vector differs.  Construction is the only fallible operation: search is
a total function by its type. -/
theorem c4_vectorstore_construction :
    (VectorStore.new [] = .ok ⟨[], 0⟩) ∧
    (∀ (e0 : List ℚ) (rest : List (List ℚ)),
      (∀ v ∈ e0 :: rest, v.length = e0.length) →
        VectorStore.new (e0 :: rest) = .ok ⟨e0 :: rest, e0.length⟩) ∧
    (∀ (e0 : List ℚ) (rest : List (List ℚ)) (k : ℕ),
      k < (e0 :: rest).length →
      (((e0 :: rest).getD k []).length ≠ e0.length) →
      (∀ j, j < k → ((e0 :: rest).getD j []).length = e0.length) →
        VectorStore.new (e0 :: rest) =
          .error ⟨k, ((e0 :: rest).getD k []).length, e0.length⟩) := by
  refine ⟨rfl, ?_, ?_⟩
  · intro e0 rest hall
    rw [show VectorStore.new (e0 :: rest) =
      (match checkDims e0.length 0 (e0 :: rest) with
        | .ok _ => Except.ok ⟨e0 :: rest, e0.length⟩
        | .error err => Except.error err) from rfl]
    rw [checkDims_ok e0.length (e0 :: rest) 0 hall]
  · intro e0 rest k hk hbad hgood
    rw [show VectorStore.new (e0 :: rest) =
      (match checkDims e0.length 0 (e0 :: rest) with
        | .ok _ => Except.ok ⟨e0 :: rest, e0.length⟩
        | .error err => Except.error err) from rfl]
    rw [checkDims_err e0.length (e0 :: rest) 0 k hk hbad hgood]
    simp

/-- Witness for C4: mixed lengths fail at the first offending index 1
with found length 1 and expected length 2. -/
theorem c4_vectorstore_construction_witness :
    VectorStore.new [[1, 0], [0], [1, 1]] = .error ⟨1, 1, 2⟩ := by
  have h := c4_vectorstore_construction.2.2 [1, 0] [[0], [1, 1]] 1
    (by decide)
    (by decide)
    (fun j hj => by
      cases j with
      | zero => rfl
      | succ n => exact absurd hj (by omega))
  simpa using h

/-! ## Lemmas: the cosine accumulator loop -/

theorem cosLoop_eq :
    ∀ (pairs : List (ℚ × ℚ)) (d na nb : ℚ),
      cosLoop pairs d na nb =
        (d + (pairs.map (fun p => p.1 * p.2)).sum,
         na + (pairs.map (fun p => p.1 * p.1)).sum,
         nb + (pairs.map (fun p => p.2 * p.2)).sum) := by
  intro pairs
  induction pairs with
  | nil => intro d na nb; simp [cosLoop]
  | cons hd tl ih =>
    intro d na nb
    obtain ⟨x, y⟩ := hd
    simp only [cosLoop, ih, List.map_cons, List.sum_cons, Prod.mk.injEq]
    refine ⟨by ring, by ring, by ring⟩

theorem zip_map_fst_sq :
    ∀ (a b : List ℚ), a.length = b.length →
      ((a.zip b).map (fun p => p.1 * p.1)).sum = normSq a := by
  intro a
  induction a with
  | nil => intro b _; simp [normSq]
  | cons x xs ih =>
    intro b h
    cases b with
    | nil => simp at h
    | cons y ys =>
      have h2 : xs.length = ys.length := by simpa using h
      simp only [List.zip_cons_cons, List.map_cons, List.sum_cons]
      rw [ih ys h2]
      simp [normSq]

theorem zip_map_snd_sq :
    ∀ (a b : List ℚ), a.length = b.length →
      ((a.zip b).map (fun p => p.2 * p.2)).sum = normSq b := by
  intro a
  induction a with
  | nil =>
    intro b h
    have : b = [] := List.length_eq_zero.1 h.symm
    subst this
    simp [normSq]
  | cons x xs ih =>
    intro b h
    cases b with
    | nil => simp at h
    | cons y ys =>
      have h2 : xs.length = ys.length := by simpa using h
      simp only [List.zip_cons_cons, List.map_cons, List.sum_cons]
      rw [ih ys h2]
      simp [normSq]

theorem cosine_eq_formula (sq : ℚ → ℚ) (a b : List ℚ) (h : a.length = b.length) :
    cosine_similarity sq a b =
      dotSpec a b / max (sq (normSq a) * sq (normSq b)) (1 / 1000000000) := by
  unfold cosine_similarity
  rw [if_neg (by simp [h])]
  rw [cosLoop_eq]
  simp only [zero_add]
  rw [zip_map_fst_sq a b h, zip_map_snd_sq a b h]
  rfl

theorem dotSpec_comm : ∀ (a b : List ℚ), dotSpec a b = dotSpec b a := by
  intro a
  induction a with
  | nil => intro b; cases b <;> simp [dotSpec]
  | cons x xs ih =>
    intro b
    cases b with
    | nil => simp [dotSpec]
    | cons y ys =>
      simp only [dotSpec, List.zip_cons_cons, List.map_cons, List.sum_cons] at *
      rw [mul_comm x y, ih ys]

/-! ## Claim C7 -/

/-- C7: cosine_similarity returns 0 when the two lengths differ, and
otherwise returns dot(a,b) divided by the product of the two norms with
the denominator clamped below at 1e-9, which keeps the denominator
positive (so the division is defined) even when either vector is
all-zero. -/
theorem c7_cosine_similarity (sq : ℚ → ℚ) (a b : List ℚ) :
    (a.length ≠ b.length → cosine_similarity sq a b = 0) ∧
    (a.length = b.length →
      cosine_similarity sq a b =
        dotSpec a b / max (sq (normSq a) * sq (normSq b)) (1 / 1000000000)) ∧
    (1 / 1000000000 : ℚ) ≤ max (sq (normSq a) * sq (normSq b)) (1 / 1000000000) ∧
    0 < max (sq (normSq a) * sq (normSq b)) (1 / 1000000000) := by
  refine ⟨?_, cosine_eq_formula sq a b, le_max_right _ _,
    lt_of_lt_of_le (by norm_num) (le_max_right _ _)⟩
  intro h
  unfold cosine_similarity
  rw [if_pos h]

/-- Witness for C7: a length mismatch yields 0, and equal lengths yield
the clamped quotient. -/
theorem c7_cosine_similarity_witness :
    cosine_similarity (fun x => x) [1] [1, 2] = 0 ∧
    cosine_similarity (fun x => x) [3] [4] =
      dotSpec [3] [4] / max (normSq [3] * normSq [4]) (1 / 1000000000) :=
  ⟨(c7_cosine_similarity (fun x => x) [1] [1, 2]).1 (by decide),
   (c7_cosine_similarity (fun x => x) [3] [4]).2.1 rfl⟩

/-! ## Claim C10 -/

/-- C10: cosine_similarity is commutative, in the length-mismatch case
and in the clamped-denominator case alike. -/
theorem c10_cosine_comm (sq : ℚ → ℚ) (a b : List ℚ) :
    cosine_similarity sq a b = cosine_similarity sq b a := by
  by_cases h : a.length = b.length
  · rw [cosine_eq_formula sq a b h, cosine_eq_formula sq b a h.symm]
    rw [dotSpec_comm a b, mul_comm (sq (normSq a)) (sq (normSq b))]
  · unfold cosine_similarity
    rw [if_pos h, if_pos (fun hh => h hh.symm)]

/-! ## Claim C8 -/

/-- C8: BM25 search and vector search return at most limit results, and
return no results when the corpus or store is empty, when the tokenized
query is empty (BM25), or when the query embedding's length differs from
the store dimension (vector search). -/
theorem c8_search_bounds (log sq : ℚ → ℚ) (idx : Bm25Index) (q : List Char)
    (st : VectorStore) (qe : List ℚ) (limit : ℕ)
    (ord : List (ℕ × ℚ) → List (ℕ × ℚ)) :
    ((idx.search log q limit ord).length ≤ limit) ∧
    (idx.total_docs = 0 → idx.search log q limit ord = []) ∧
    (tokenize q = [] → idx.search log q limit ord = []) ∧
    ((st.search sq qe limit).length ≤ limit) ∧
    (st.embeddings = [] → st.search sq qe limit = []) ∧
    (qe.length ≠ st.dimension → st.search sq qe limit = []) := by
  refine ⟨?_, ?_, ?_, ?_, ?_, ?_⟩
  · unfold Bm25Index.search
    by_cases ht : idx.total_docs = 0
    · simp [ht]
    · by_cases hq : tokenize q = []
      · simp [ht, hq]
      · simp only [if_neg ht, if_neg hq]
        exact List.length_take_le _ _
  · intro h
    simp [Bm25Index.search, h]
  · intro h
    unfold Bm25Index.search
    by_cases ht : idx.total_docs = 0
    · simp [ht]
    · simp [ht, h]
  · unfold VectorStore.search
    by_cases hc : st.embeddings = [] ∨ qe.length ≠ st.dimension
    · simp [hc]
    · rw [if_neg hc]
      exact List.length_take_le _ _
  · intro h
    simp [VectorStore.search, h]
  · intro h
    simp [VectorStore.search, h]

/-- Witness for C8: the empty index and the empty store return no
results. -/
theorem c8_search_bounds_witness :
    Bm25Index.search (fun x => x) emptyIdx ['a', 'b'] 3 (fun l => l) = [] ∧
    VectorStore.search (fun x => x) ⟨[], 0⟩ [1] 3 = [] :=
  ⟨(c8_search_bounds (fun x => x) (fun x => x) emptyIdx ['a', 'b'] ⟨[], 0⟩ [1] 3
      (fun l => l)).2.1 rfl,
   (c8_search_bounds (fun x => x) (fun x => x) emptyIdx ['a', 'b'] ⟨[], 0⟩ [1] 3
      (fun l => l)).2.2.2.2.1 rfl⟩

/-! ## Claim C3 -/

/-- C3 (documents the code bug): the source computes
`1.0 - b + b * (doc_length / avg_doc_length)` with no guard, so with
avg_doc_length = 0 (every indexed document empty) and doc_length = 0 the
f32 expression divides 0.0 by 0.0 and is non-finite (NaN), not the value
(1 - b) the specification prescribes; the spec-modelled guard gives
(1 - b) = 1/4 at b = 3/4. -/
theorem c3_division_by_zero_bug :
    lengthNormChecked (3 / 4) 0 0 = none ∧
    lengthNormGuarded (3 / 4) 0 0 = 1 - 3 / 4 := by
  constructor
  · norm_num [lengthNormChecked, fDiv, fMul, fSub, fAdd]
  · norm_num [lengthNormGuarded]

end EdgeRag
